import Mathlib

/-!
Shallow embedding of the orchestration layer of `audfprint.py`
(repository audfprint-enhanced): command planning, single-process and
multi-process executors, round-robin partitioning, the partial-index
merge pipeline, precompute caching, and the persistence epilogue.

Pure functions of the Python source are translated to Lean functions;
stateful code is explicit state passing; fallible code returns
`Except`.  The external collaborators that are not under `src/`
(`hash_table.py`, `audfprint_analyze.py`, the `joblib` pool and the
`multiprocessing` pipes) are modelled from the spec, as marked on each
definition.
-/

set_option autoImplicit false

deriving instance DecidableEq for Except

/-- The eight CLI commands (`click.Choice` in `audfprint.py` line 314).
`match` and `list` are Lean keywords, hence the trailing underscore. -/
inductive Cmd
  | new | add | precompute | merge | newmerge | match_ | list_ | remove
deriving DecidableEq, Repr

/-- Modelled from the spec: the Fingerprint Index (`hash_table.HashTable`,
repository code not under `src/`).  Spec §3: a handle created fresh with
(hash-width, bucket depth, max-time-range) or loaded from storage; it
records one (name, stored-hash count) entry per stored file (the code
reads them back as the parallel lists `.names` and `.counts`,
`audfprint.py` lines 222-223), a parameter dictionary holding an
optional `samplerate` among other parameters, and a dirty flag set by
any store/merge/remove and cleared only by save. -/
structure HashTable where
  hashbits : Nat
  depth : Nat
  maxtime : Nat
  entries : List (String × Nat)
  samplerate : Option Nat
  otherParams : List (String × Nat)
  dirty : Bool
deriving DecidableEq, Repr

/-- A fresh, empty index (`hash_table.HashTable(hashbits=…, depth=…,
maxtime=…)`); modelled from the spec: no mutation yet, so not dirty. -/
def HashTable.fresh (hashbits depth maxtime : Nat) (sr : Option Nat) : HashTable :=
  { hashbits := hashbits, depth := depth, maxtime := maxtime,
    entries := [], samplerate := sr, otherParams := [], dirty := false }

/-- Modelled from the spec: `HashTable.store(name, hashes)` records the
file's name with its stored-hash count and marks the index dirty. -/
def HashTable.store (t : HashTable) (name : String) (hashes : List Nat) : HashTable :=
  { t with entries := t.entries ++ [(name, hashes.length)], dirty := true }

/-- Modelled from the spec: `HashTable.merge(other)` appends the other
index's per-file entries to this one and marks the index dirty. -/
def HashTable.merge (t other : HashTable) : HashTable :=
  { t with entries := t.entries ++ other.entries, dirty := true }

/-- Modelled from the spec: `HashTable.remove(name)` drops the named
file's entries and marks the index dirty (spec §3: the dirty flag is
set by any store/merge/remove). -/
def HashTable.remove (t : HashTable) (name : String) : HashTable :=
  { t with entries := t.entries.filter (fun p => p.1 ≠ name), dirty := true }

/-- The `.names` list read back by `multiproc_add` (line 222). -/
def HashTable.names (t : HashTable) : List String :=
  t.entries.map Prod.fst

/-- The `.counts` list read back by `multiproc_add` (line 223). -/
def HashTable.counts (t : HashTable) : List Nat :=
  t.entries.map Prod.snd

/-- Total stored-hash count, `sum(t.counts)` (line 223). -/
def HashTable.totcount (t : HashTable) : Nat :=
  t.counts.sum

/-- Per-file entry count: total stored-hash count credited to `f`. -/
def HashTable.countFor (t : HashTable) (f : String) : Nat :=
  ((t.entries.filter (fun p => p.1 = f)).map Prod.snd).sum

/-- Modelled from the spec: the Acoustic Analyzer (`audfprint_analyze`,
repository code not under `src/`).  Spec §1: it turns one audio file
into landmark-hash records and reports per-call duration and hash
counts; an environment fixes the analysis results per file name.
Durations are modelled as abstract integer quantities: every claim
depends only on whether the cumulative duration is zero. -/
structure Analyzer where
  hashesOf : String → List Nat
  peaksOf : String → List Nat
  durOf : String → Int

/-- One step of the `merge`/`newmerge` loop of `do_cmd` (lines 143-152):
load `hash_tab2` (here already given as `b`), assert sample-rate
agreement when the primary defines one (Python `assert` raises
`AssertionError` on mismatch; reading a missing key from `b.params`
raises `KeyError`), adopt `b`'s sample rate when the primary does not
define one, then merge. -/
def merge_step (a b : HashTable) : Except String HashTable :=
  match a.samplerate with
  | some sra =>
      match b.samplerate with
      | some srb =>
          if sra = srb then Except.ok (a.merge b)
          else Except.error "AssertionError: samplerate mismatch"
      | none => Except.error "KeyError: samplerate"
  | none =>
      match b.samplerate with
      | some srb => Except.ok (({ a with samplerate := some srb }).merge b)
      | none => Except.error "KeyError: samplerate"

/-- The ingest loop of `do_cmd` for `new`/`add` (lines 169-174): for
each file, analyze it and store the result into the table (spec §4.3:
the Analyzer's combined analyze-and-store operation per file). -/
def ingest_loop (az : Analyzer) (t : HashTable) (files : List String) : HashTable :=
  files.foldl (fun acc f => acc.store f (az.hashesOf f)) t

/-- The `new`/`add` branch of `do_cmd` (lines 165-178): ingest every
file, then report `tothashes / float(analyzer.soundfiletotaldur)`;
Python raises `ZeroDivisionError` when the cumulative processed
duration is zero. -/
def do_cmd_new_add (az : Analyzer) (t : HashTable) (files : List String) :
    Except String (HashTable × Nat) :=
  let t2 := ingest_loop az t files
  let tothashes := (files.map (fun f => (az.hashesOf f).length)).sum
  let totaldur := (files.map az.durOf).sum
  if totaldur = 0 then Except.error "ZeroDivisionError"
  else Except.ok (t2, tothashes)

/-- One step of the round-robin unpacking loop of `multiproc_add`
(lines 203-206): `filelists[ix % ncores].append(filename); ix += 1`. -/
def round_robin_step (ncores : Nat) (acc : List (List String) × Nat) (f : String) :
    List (List String) × Nat :=
  (acc.1.set (acc.2 % ncores) ((acc.1.getD (acc.2 % ncores) []) ++ [f]), acc.2 + 1)

/-- The round-robin split of `multiproc_add` (lines 201-206): start
from `ncores` empty lists and distribute the files by index modulo
`ncores`. -/
def round_robin (files : List String) (ncores : Nat) : List (List String) :=
  (files.foldl (round_robin_step ncores) (List.replicate ncores [], 0)).1

/-- `make_ht_from_list` (lines 122-136): build a fresh hash table sized
like the primary and ingest every file of the given partition. -/
def make_ht_from_list (az : Analyzer) (filelist : List String)
    (hashbits depth maxtime : Nat) : HashTable :=
  ingest_loop az (HashTable.fresh hashbits depth maxtime none) filelist

/-- Events observed on the orchestrating thread of `multiproc_add`:
worker launch, pipe receive, sequential merge, worker join. -/
inductive MPEvent
  | start (core : Nat)
  | recv (core : Nat)
  | mergeEv (core : Nat)
  | join (core : Nat)
deriving DecidableEq, Repr

/-- The gather loop of `multiproc_add` (lines 218-227): for each core
in launch order, receive its partial index over the pipe (modelled from
the spec: the pipe delivers the worker function applied to its
partition), merge it into the primary on the orchestrating thread, and
join the worker. -/
def gather_loop (recv_of : Nat → HashTable) :
    List Nat → HashTable → List MPEvent → HashTable × List MPEvent
  | [], t, tr => (t, tr)
  | c :: rest, t, tr =>
      gather_loop recv_of rest (t.merge (recv_of c))
        (tr ++ [MPEvent.recv c, MPEvent.mergeEv c, MPEvent.join c])

/-- `multiproc_add` (lines 191-227): split the files round-robin into
`ncores` partitions, launch one worker per partition, then gather and
merge the partial indexes in launch order.  Returns the final primary
index together with the orchestrator's event trace. -/
def multiproc_add (az : Analyzer) (t : HashTable) (files : List String)
    (ncores : Nat) : HashTable × List MPEvent :=
  let filelists := round_robin files ncores
  let recv_of := fun c =>
    make_ht_from_list az (filelists.getD c []) t.hashbits t.depth t.maxtime
  gather_loop recv_of (List.range ncores) t
    ((List.range ncores).map MPEvent.start)

/-- Modelled from the spec: a `joblib.Parallel` pool's gather step.
Workers finish in an arbitrary completion order, each reporting its
submission index with its result; the executor preserves the
file→result position mapping (spec §4.4), i.e. slot `j` of the output
is the result reported for index `j`. -/
def parallel_gather {α : Type} (results : List (Nat × α)) (len : Nat) (dflt : α) :
    List α :=
  (List.range len).map (fun j => ((results.lookup j).getD dflt))

/-- Modelled from the spec: the stream of (submission index, result)
pairs produced by workers completing in order `sched`. -/
def completion_results {α : Type} (g : Nat → α) (sched : List Nat) : List (Nat × α) :=
  sched.map (fun i => (i, g i))

/-- The message log of the parallel-task path of `do_cmd_multiproc` for
`precompute`/`match` (lines 239-259): one task per file, results
gathered in submission order and logged in that order. -/
def do_cmd_multiproc_log (f : String → List String) (files : List String)
    (sched : List Nat) : List String :=
  (parallel_gather
    (completion_results (fun i => f (files.getD i "")) sched)
    files.length []).flatten

/-- The message log of the single-process `precompute`/`match` loop of
`do_cmd` (lines 154-163): one message block per file, in input order. -/
def do_cmd_single_log (f : String → List String) (files : List String) : List String :=
  (files.map f).flatten

/-- Filesystem state visible to the orchestration layer: regular files
with their written payloads, existing directories, and the set of
directories the OS would let us create (`os.makedirs` succeeds exactly
on those). -/
structure FileSys where
  files : List (String × List Nat)
  dirs : List String
  creatable : List String
deriving DecidableEq, Repr

/-- `os.path.isfile` over the modelled filesystem. -/
def FileSys.isfile (fs : FileSys) (p : String) : Bool :=
  fs.files.any (fun q => q.1 = p)

/-- `os.path.exists` for a directory over the modelled filesystem. -/
def FileSys.direxists (fs : FileSys) (p : String) : Bool :=
  fs.dirs.any (fun q => q = p)

/-- Writing a payload to a path (the `saver(opfname, output)` call of
`file_precompute_peaks_or_hashes`, line 105): overwrite or create. -/
def FileSys.write (fs : FileSys) (p : String) (content : List Nat) : FileSys :=
  { fs with files := (fs.files.filter (fun q => q.1 ≠ p)) ++ [(p, content)] }

/-- `ensure_dir` (`audfprint.py` lines 46-55): if the name is nonempty
and the directory does not exist, try `os.makedirs`; every exception is
swallowed by the bare `except: pass`, so the call never raises — when
the directory cannot be created the filesystem is returned unchanged. -/
def ensure_dir (fs : FileSys) (dirname : String) : FileSys :=
  if dirname.length ≠ 0 then
    if fs.direxists dirname then fs
    else
      if fs.creatable.any (fun q => q = dirname) then
        { fs with dirs := fs.dirs ++ [dirname] }
      else fs
  else fs

/-- Index of the last occurrence of a character in a list. -/
def lastIndexOf (c : Char) : List Char → Option Nat
  | [] => none
  | x :: xs =>
      match lastIndexOf c xs with
      | some i => some (i + 1)
      | none => if x = c then some 0 else none

/-- Modelled from the spec: `os.path.split(p)[0]` — the part of the
path before the last slash (head of the common cases used here). -/
def path_dirname (p : String) : String :=
  match lastIndexOf '/' p.toList with
  | some i => String.mk (p.toList.take i)
  | none => ""

/-- Modelled from the spec: `os.path.join(a, b)` for the cases
exercised here — empty left part yields the right part, an absolute
right part wins, otherwise join with a single slash. -/
def path_join (a b : String) : String :=
  if a = "" then b
  else if b.take 1 = "/" then b
  else if a.takeRight 1 = "/" then a ++ b
  else a ++ "/" ++ b

/-- The prefix stripping at the head of
`file_precompute_peaks_or_hashes` (lines 70-73): if a prefix string is
given (Python truthiness: non-None and nonempty) and matches the start
of the filename, drop it. -/
def tail_filename ( strip_prefix : Option String) (filename : String) : String :=
  match strip_prefix with
  | some p => if p ≠ "" ∧ filename.take p.length = p then filename.drop p.length else filename
  | none => filename

/-- The relative-name canonicalization (lines 77-78): drop `.`, `..`
and empty components and rejoin with slashes. -/
def relname_of (t : String) : String :=
  String.intercalate "/"
    ((t.splitOn "/").filter (fun c => c ≠ "." ∧ c ≠ ".." ∧ c ≠ ""))

/-- Modelled from the spec: `os.path.splitext(s)[0]` — cut the final
component's extension at its last dot, ignoring leading dots of that
component. -/
def splitext_root (s : String) : String :=
  let cs := s.toList
  let baseStart :=
    match lastIndexOf '/' cs with
    | some i => i + 1
    | none => 0
  let base := cs.drop baseStart
  let leadingDots := (base.takeWhile (fun c => c = '.')).length
  match lastIndexOf '.' base with
  | some i =>
      if leadingDots ≤ i then String.mk (cs.take (baseStart + i))
      else s
  | none => s

/-- The fixed precompute extensions (`audfprint_analyze.PRECOMPEXT` and
`PRECOMPPKEXT`, repository code not under `src/`; modelled from the
spec: each artifact kind has a fixed extension). -/
def precompext_of (hashes_not_peaks : Bool) : String :=
  if hashes_not_peaks then ".afpt" else ".afpk"

/-- The derived output artifact name of
`file_precompute_peaks_or_hashes` (lines 70-85). -/
def opfname_of (precompdir : String) (hashes_not_peaks : Bool)
    ( strip_prefix : Option String) (filename : String) : String :=
  path_join precompdir
    (splitext_root (relname_of (tail_filename strip_prefix filename))
      ++ precompext_of hashes_not_peaks)

/-- Outcome of one precompute action: the filesystem afterwards, the
returned message list, and how many analyses were performed. -/
structure PrecompResult where
  fs : FileSys
  msgs : List String
  analyses : Nat
deriving DecidableEq, Repr

/-- `file_precompute_peaks_or_hashes` (lines 62-108): derive the output
name; if skip-existing is set and the artifact exists, return the
single skip message without analysis or write; otherwise analyze, and
either report a zero-length analysis without saving or ensure the
output directory and write the artifact.  (The `wrote` message's
numeric formatting is elided.) -/
def file_precompute_peaks_or_hashes (az : Analyzer) (fs : FileSys)
    (filename precompdir : String) (hashes_not_peaks : Bool)
    (skip_existing : Bool) ( strip_prefix : Option String) : PrecompResult :=
  let opfname := opfname_of precompdir hashes_not_peaks strip_prefix filename
  if skip_existing ∧ fs.isfile opfname then
    { fs := fs,
      msgs := ["file " ++ opfname ++ " exists (and --skip-existing); skipping"],
      analyses := 0 }
  else
    let output := if hashes_not_peaks then az.hashesOf filename else az.peaksOf filename
    if output.length = 0 then
      { fs := fs,
        msgs := ["Zero length analysis for " ++ filename ++ " -- not saving."],
        analyses := 1 }
    else
      { fs := (ensure_dir fs (path_dirname opfname)).write opfname output,
        msgs := ["wrote " ++ opfname],
        analyses := 1 }

/-- The executor-selection test of `main` (line 406): multi-process
exactly when more than one core is requested and the command is not in
the always-single-process list. -/
def selects_multiproc (ncores : Nat) (cmd : Cmd) : Bool :=
  decide (1 < ncores) &&
    !(decide (cmd = Cmd.merge) || decide (cmd = Cmd.newmerge)
      || decide (cmd = Cmd.list_) || decide (cmd = Cmd.remove))

/-- `do_cmd` (lines 139-188) restricted to its effect on the primary
index; per-file messages are modelled separately
(`do_cmd_single_log`).  `precompute` touches no index; `match` and
`list` only read it; `merge`/`newmerge` fold `merge_step` over the
loaded argument tables; `new`/`add` run the ingest loop and then the
hashes-per-second report that divides by the cumulative duration. -/
def do_cmd_model (az : Analyzer) (load : String → HashTable) (cmd : Cmd)
    (tab : Option HashTable) (files : List String) :
    Except String (Option HashTable) :=
  match cmd with
  | Cmd.merge | Cmd.newmerge =>
      match tab with
      | some t =>
          (files.foldlM (fun acc f => merge_step acc (load f)) t).map some
      | none => Except.ok none
  | Cmd.precompute => Except.ok tab
  | Cmd.match_ => Except.ok tab
  | Cmd.new | Cmd.add =>
      match tab with
      | some t => (do_cmd_new_add az t files).map (fun r => some r.1)
      | none => Except.ok none
  | Cmd.remove =>
      Except.ok (tab.map (fun t => files.foldl HashTable.remove t))
  | Cmd.list_ => Except.ok tab

/-- `do_cmd_multiproc` (lines 235-268) restricted to its effect on the
primary index: `precompute`/`match` fan out read-only tasks;
`new`/`add` run the partition-build-merge pipeline; any other command
raises `ValueError` (lines 266-268). -/
def do_cmd_multiproc_model (az : Analyzer) (cmd : Cmd) (tab : Option HashTable)
    (files : List String) (ncores : Nat) : Except String (Option HashTable) :=
  match cmd with
  | Cmd.precompute => Except.ok tab
  | Cmd.match_ => Except.ok tab
  | Cmd.new | Cmd.add =>
      Except.ok (tab.map (fun t => (multiproc_add az t files ncores).1))
  | _ => Except.error "ValueError: unrecognized multiproc command"

/-- The planning prelude of `main` (lines 358-393): commands other than
`precompute` require a database name (`ValueError` when absent); `new`
and `newmerge` ensure the index's containing directory and create a
fresh table — only `new` has an analyzer, so only `new` sets the
sample-rate parameter (the source comments that `newmerge` fails to set
it); every other index-using command loads the named table, whose dirty
flag is clear right after loading. -/
def plan_table (load : String → HashTable) (fs : FileSys) (cmd : Cmd)
    (dbase : String) (samplerate hashbits depth maxtimebits : Nat) :
    Except String (FileSys × Option HashTable) :=
  match cmd with
  | Cmd.precompute => Except.ok (fs, none)
  | _ =>
      if dbase = "" then
        Except.error "ValueError: dbase name must be provided if not precompute"
      else if cmd = Cmd.new ∨ cmd = Cmd.newmerge then
        Except.ok (ensure_dir fs (path_dirname dbase),
          some (HashTable.fresh hashbits depth (2 ^ maxtimebits)
            (if cmd = Cmd.new then some samplerate else none)))
      else
        Except.ok (fs, some { load dbase with dirty := false })

/-- The persistence epilogue of `main` (lines 427-430): save the
primary index to the originally named path exactly when a table handle
exists and its dirty flag is set. -/
def save_epilogue (dbase : String) (tab : Option HashTable) : List String :=
  match tab with
  | some t => if t.dirty then [dbase] else []
  | none => []

/-- Result of one complete run: filesystem after the prelude, the final
primary index handle, and the list of index-persistence writes. -/
structure RunResult where
  fs : FileSys
  tab : Option HashTable
  writes : List String
deriving DecidableEq, Repr

/-- One complete run of `main` (lines 348-430) over the modelled state:
plan the table, dispatch to the single- or multi-process executor by
the line-406 test, then run the persistence epilogue. -/
def run_main (az : Analyzer) (load : String → HashTable) (fs : FileSys)
    (cmd : Cmd) (dbase : String) (files : List String) (ncores : Nat)
    (samplerate hashbits depth maxtimebits : Nat) :
    Except String RunResult :=
  match plan_table load fs cmd dbase samplerate hashbits depth maxtimebits with
  | Except.error e => Except.error e
  | Except.ok (fs2, tab) =>
      match (if selects_multiproc ncores cmd then
              do_cmd_multiproc_model az cmd tab files ncores
             else
              do_cmd_model az load cmd tab files) with
      | Except.error e => Except.error e
      | Except.ok tab2 =>
          Except.ok { fs := fs2, tab := tab2, writes := save_epilogue dbase tab2 }

/-- Concrete analyzer fixture: each file yields one hash per character
of its name and one second of audio. -/
def azW : Analyzer :=
  { hashesOf := fun s => List.range s.length,
    peaksOf := fun s => List.range s.length,
    durOf := fun _ => 1 }

/-- Concrete primary-index fixture. -/
def tabW : HashTable := HashTable.fresh 20 100 16384 (some 11025)

/-- Concrete loader fixture: every path loads an index that stores one
file entry and defines samplerate 11025. -/
def loadW : String → HashTable :=
  fun p => { HashTable.fresh 20 100 16384 (some 11025) with entries := [(p, 7)] }

/-- Concrete filesystem fixture: empty, with one creatable directory. -/
def fsW : FileSys := { files := [], dirs := [], creatable := ["p"] }

/-- Concrete filesystem fixture for the fail-fast question: nothing
exists and nothing may be created (`os.makedirs` fails everywhere). -/
def fsLocked : FileSys := { files := [], dirs := [], creatable := [] }

/-! ## Helper lemmas -/

theorem map_getD_range {α : Type} (d : α) :
    ∀ l : List α, (List.range l.length).map (fun j => l.getD j d) = l := by
  intro l
  induction l with
  | nil => rfl
  | cons a t ih =>
      rw [List.length_cons, List.range_succ_eq_map, List.map_cons, List.map_map]
      have h2 : List.map ((fun j => (a :: t).getD j d) ∘ Nat.succ) (List.range t.length)
          = List.map (fun j => t.getD j d) (List.range t.length) := by
        refine List.map_congr_left ?_
        intro j _
        rfl
      rw [h2, ih]
      rfl

theorem map_comp_getD_range {α β : Type} (d : α) (F : α → β) (l : List α) :
    (List.range l.length).map (fun j => F (l.getD j d)) = l.map F := by
  have h := congrArg (List.map F) (map_getD_range d l)
  simpa [List.map_map, Function.comp] using h

theorem count_eq_sum_map (f : String) :
    ∀ l : List String, l.count f = (l.map (fun g => if g = f then 1 else 0)).sum := by
  intro l
  induction l with
  | nil => rfl
  | cons a t ih =>
      by_cases haf : a = f <;>
        simp [List.count_cons, haf, ih, Nat.add_comm]

theorem sum_map_mul_right {α : Type} (g : α → Nat) (r : Nat) :
    ∀ l : List α, (l.map (fun x => g x * r)).sum = (l.map g).sum * r := by
  intro l
  induction l with
  | nil => simp
  | cons a t ih => simp [ih, Nat.add_mul]

theorem map_sum_set_append (w : String → Nat) :
    ∀ (ps : List (List String)) (i : Nat) (f : String), i < ps.length →
      ((ps.set i ((ps.getD i []) ++ [f])).map (fun p => (p.map w).sum)).sum
        = ((ps.map (fun p => (p.map w).sum)).sum) + w f := by
  intro ps
  induction ps with
  | nil => intro i f h; simp at h
  | cons hd tl ih =>
      intro i f h
      cases i with
      | zero => simp [Nat.add_assoc, Nat.add_comm, Nat.add_left_comm]
      | succ j =>
          have hj : j < tl.length := by simpa using h
          rw [show (hd :: tl).getD (j + 1) [] = tl.getD j [] from rfl]
          rw [show (hd :: tl).set (j + 1) (tl.getD j [] ++ [f])
                = hd :: tl.set j (tl.getD j [] ++ [f]) from rfl]
          simp only [List.map_cons, List.sum_cons]
          rw [ih j f hj]
          omega

theorem round_robin_fold_length (n : Nat) :
    ∀ (files : List String) (ps : List (List String)) (ix : Nat),
      ((files.foldl (round_robin_step n) (ps, ix)).1).length = ps.length := by
  intro files
  induction files with
  | nil => intro ps ix; rfl
  | cons f rest ih =>
      intro ps ix
      simp only [List.foldl_cons]
      rw [ih]
      simp [round_robin_step]

theorem round_robin_fold_sum (w : String → Nat) (n : Nat) (hn : 0 < n) :
    ∀ (files : List String) (ps : List (List String)) (ix : Nat), ps.length = n →
      ((((files.foldl (round_robin_step n) (ps, ix)).1).map
          (fun p => (p.map w).sum)).sum)
        = ((ps.map (fun p => (p.map w).sum)).sum) + (files.map w).sum := by
  intro files
  induction files with
  | nil => intro ps ix _; simp
  | cons f rest ih =>
      intro ps ix hlen
      simp only [List.foldl_cons]
      have hmod : ix % n < ps.length := by
        rw [hlen]; exact Nat.mod_lt ix hn
      have hlen2 : (ps.set (ix % n) ((ps.getD (ix % n) []) ++ [f])).length = n := by
        simpa using hlen
      rw [show round_robin_step n (ps, ix) f
            = (ps.set (ix % n) ((ps.getD (ix % n) []) ++ [f]), ix + 1) from rfl]
      rw [ih _ _ hlen2, map_sum_set_append w ps (ix % n) f hmod]
      simp [Nat.add_assoc, Nat.add_comm, Nat.add_left_comm]

theorem round_robin_length (files : List String) (n : Nat) :
    (round_robin files n).length = n := by
  unfold round_robin
  rw [round_robin_fold_length]
  simp

theorem round_robin_weight_sum (w : String → Nat) (files : List String) (n : Nat)
    (hn : 0 < n) :
    ((round_robin files n).map (fun p => (p.map w).sum)).sum = (files.map w).sum := by
  unfold round_robin
  rw [round_robin_fold_sum w n hn files (List.replicate n []) 0 (by simp)]
  simp

theorem round_robin_count (f : String) (files : List String) (n : Nat) (hn : 0 < n) :
    ((round_robin files n).map (fun p => p.count f)).sum = files.count f := by
  have h1 : ((round_robin files n).map (fun p => p.count f))
      = ((round_robin files n).map (fun p => (p.map (fun g => if g = f then 1 else 0)).sum)) := by
    refine List.map_congr_left ?_
    intro p _
    exact count_eq_sum_map f p
  rw [h1, round_robin_weight_sum _ files n hn, ← count_eq_sum_map]

theorem getD_le_sum : ∀ (l : List Nat) (i : Nat), l.getD i 0 ≤ l.sum := by
  intro l
  induction l with
  | nil => intro i; simp
  | cons a t ih =>
      intro i
      cases i with
      | zero => simp
      | succ j =>
          calc t.getD j 0 ≤ t.sum := ih j
          _ ≤ a + t.sum := Nat.le_add_left _ _

theorem getD_two_le_sum :
    ∀ (l : List Nat) (i j : Nat), i < l.length → j < l.length → i ≠ j →
      l.getD i 0 + l.getD j 0 ≤ l.sum := by
  intro l
  induction l with
  | nil => intro i j hi; simp at hi
  | cons a t ih =>
      intro i j hi hj hij
      cases i with
      | zero =>
          cases j with
          | zero => exact absurd rfl hij
          | succ j2 =>
              have := getD_le_sum t j2
              simp only [List.getD_cons_zero, List.getD_cons_succ, List.sum_cons]
              omega
      | succ i2 =>
          cases j with
          | zero =>
              have := getD_le_sum t i2
              simp only [List.getD_cons_zero, List.getD_cons_succ, List.sum_cons]
              omega
          | succ j2 =>
              have hi2 : i2 < t.length := by simpa using hi
              have hj2 : j2 < t.length := by simpa using hj
              have := ih i2 j2 hi2 hj2 (by omega)
              simp only [List.getD_cons_succ, List.sum_cons]
              omega

theorem getD_map_count (g : List String → Nat) (hg : g [] = 0) :
    ∀ (l : List (List String)) (i : Nat),
      (l.map g).getD i 0 = g (l.getD i []) := by
  intro l
  induction l with
  | nil => intro i; simp [hg]
  | cons a t ih =>
      intro i
      cases i with
      | zero => rfl
      | succ j => exact ih j

theorem ingest_loop_entries (az : Analyzer) :
    ∀ (l : List String) (t : HashTable),
      (ingest_loop az t l).entries
        = t.entries ++ l.map (fun f => (f, (az.hashesOf f).length)) := by
  intro l
  induction l with
  | nil => intro t; simp [ingest_loop]
  | cons f rest ih =>
      intro t
      rw [show ingest_loop az t (f :: rest)
            = ingest_loop az (t.store f (az.hashesOf f)) rest from rfl]
      rw [ih]
      simp [HashTable.store]

theorem ingest_loop_dirty (az : Analyzer) :
    ∀ (l : List String) (t : HashTable),
      (ingest_loop az t l).dirty = (t.dirty || decide (l ≠ [])) := by
  intro l
  induction l with
  | nil => intro t; simp [ingest_loop]
  | cons f rest ih =>
      intro t
      rw [show ingest_loop az t (f :: rest)
            = ingest_loop az (t.store f (az.hashesOf f)) rest from rfl]
      rw [ih]
      simp [HashTable.store]

theorem gather_loop_spec (recv_of : Nat → HashTable) :
    ∀ (cores : List Nat) (t : HashTable) (tr : List MPEvent),
      gather_loop recv_of cores t tr
        = (cores.foldl (fun a c => a.merge (recv_of c)) t,
           tr ++ cores.flatMap
             (fun c => [MPEvent.recv c, MPEvent.mergeEv c, MPEvent.join c])) := by
  intro cores
  induction cores with
  | nil => intro t tr; simp [gather_loop]
  | cons c rest ih =>
      intro t tr
      rw [show gather_loop recv_of (c :: rest) t tr
            = gather_loop recv_of rest (t.merge (recv_of c))
                (tr ++ [MPEvent.recv c, MPEvent.mergeEv c, MPEvent.join c]) from rfl]
      rw [ih]
      simp

theorem merge_foldl_entries :
    ∀ (parts : List HashTable) (t : HashTable),
      (parts.foldl HashTable.merge t).entries
        = t.entries ++ (parts.map HashTable.entries).flatten := by
  intro parts
  induction parts with
  | nil => intro t; simp
  | cons p rest ih =>
      intro t
      simp only [List.foldl_cons]
      rw [ih]
      simp [HashTable.merge]

theorem merge_foldl_dirty :
    ∀ (parts : List HashTable) (t : HashTable),
      (parts.foldl HashTable.merge t).dirty = (t.dirty || decide (parts ≠ [])) := by
  intro parts
  induction parts with
  | nil => intro t; simp
  | cons p rest ih =>
      intro t
      simp only [List.foldl_cons]
      rw [ih]
      simp [HashTable.merge]

theorem pair_filter_sum (w : String → Nat) (f : String) :
    ∀ l : List String,
      (((l.map (fun g => (g, w g))).filter (fun p => p.1 = f)).map Prod.snd).sum
        = l.count f * w f := by
  intro l
  induction l with
  | nil => simp
  | cons g rest ih =>
      by_cases hgf : g = f
      · subst hgf
        simp only [List.map_cons, List.filter_cons, List.count_cons]
        simp [ih, Nat.succ_mul, Nat.add_comm]
      · simp only [List.map_cons, List.filter_cons, List.count_cons]
        simp [hgf, ih, Ne.symm hgf]

theorem sum_snd_filter_flatten (f : String) :
    ∀ Ls : List (List (String × Nat)),
      (((Ls.flatten).filter (fun p => p.1 = f)).map Prod.snd).sum
        = (Ls.map (fun e => ((e.filter (fun p => p.1 = f)).map Prod.snd).sum)).sum := by
  intro Ls
  induction Ls with
  | nil => simp
  | cons e rest ih =>
      simp only [List.flatten_cons, List.filter_append, List.map_append,
        List.sum_append, List.map_cons, List.sum_cons]
      rw [ih]

theorem sum_snd_flatten :
    ∀ Ls : List (List (String × Nat)),
      ((Ls.flatten).map Prod.snd).sum
        = (Ls.map (fun e => (e.map Prod.snd).sum)).sum := by
  intro Ls
  induction Ls with
  | nil => simp
  | cons e rest ih =>
      simp only [List.flatten_cons, List.map_append, List.sum_append,
        List.map_cons, List.sum_cons]
      rw [ih]

theorem lookup_completion {α : Type} (g : Nat → α) :
    ∀ (sched : List Nat) (j : Nat), j ∈ sched →
      (completion_results g sched).lookup j = some (g j) := by
  intro sched
  induction sched with
  | nil => intro j hj; simp at hj
  | cons i rest ih =>
      intro j hj
      rw [show completion_results g (i :: rest)
            = (i, g i) :: completion_results g rest from rfl]
      by_cases hji : j = i
      · subst hji
        simp [List.lookup]
      · have hmem : j ∈ rest := by
          rcases List.mem_cons.mp hj with h | h
          · exact absurd h hji
          · exact h
        have hbeq : (j == i) = false := by simpa using hji
        simp [List.lookup, hbeq, ih j hmem]

theorem countFor_ingest (az : Analyzer) (t : HashTable) (l : List String) (f : String) :
    (ingest_loop az t l).countFor f
      = t.countFor f + l.count f * (az.hashesOf f).length := by
  unfold HashTable.countFor
  rw [ingest_loop_entries]
  simp only [List.filter_append, List.map_append, List.sum_append]
  rw [pair_filter_sum (fun g => (az.hashesOf g).length) f l]

theorem totcount_ingest (az : Analyzer) (t : HashTable) (l : List String) :
    (ingest_loop az t l).totcount
      = t.totcount + (l.map (fun g => (az.hashesOf g).length)).sum := by
  unfold HashTable.totcount HashTable.counts
  rw [ingest_loop_entries]
  simp only [List.map_append, List.sum_append, List.map_map]
  refine congrArg (fun r => _ + r) ?_
  refine congrArg List.sum ?_
  refine List.map_congr_left ?_
  intro g _
  rfl

theorem countFor_merge_foldl (parts : List HashTable) (t : HashTable) (f : String) :
    (parts.foldl HashTable.merge t).countFor f
      = t.countFor f + (parts.map (fun p => p.countFor f)).sum := by
  unfold HashTable.countFor
  rw [merge_foldl_entries]
  simp only [List.filter_append, List.map_append, List.sum_append]
  rw [sum_snd_filter_flatten, List.map_map]
  rfl

theorem totcount_merge_foldl (parts : List HashTable) (t : HashTable) :
    (parts.foldl HashTable.merge t).totcount
      = t.totcount + (parts.map HashTable.totcount).sum := by
  unfold HashTable.totcount HashTable.counts
  rw [merge_foldl_entries]
  simp only [List.map_append, List.sum_append]
  rw [sum_snd_flatten, List.map_map]
  rfl

theorem foldl_merge_range (F : List String → HashTable) (rr : List (List String))
    (t : HashTable) (n : Nat) (hlen : rr.length = n) :
    (List.range n).foldl (fun a c => a.merge (F (rr.getD c []))) t
      = (rr.map F).foldl HashTable.merge t := by
  subst hlen
  have h1 : (List.range rr.length).foldl (fun a c => a.merge (F (rr.getD c []))) t
      = ((List.range rr.length).map (fun c => rr.getD c [])).foldl
          (fun a p => a.merge (F p)) t := by
    rw [List.foldl_map]
  rw [h1, map_getD_range, List.foldl_map]

theorem multiproc_add_table (az : Analyzer) (t : HashTable) (files : List String)
    (n : Nat) :
    (multiproc_add az t files n).1
      = (((round_robin files n).map
            (fun p => make_ht_from_list az p t.hashbits t.depth t.maxtime)).foldl
          HashTable.merge t) := by
  unfold multiproc_add
  rw [gather_loop_spec]
  exact foldl_merge_range _ _ t n (round_robin_length files n)

theorem multiproc_add_trace (az : Analyzer) (t : HashTable) (files : List String)
    (n : Nat) :
    (multiproc_add az t files n).2
      = (List.range n).map MPEvent.start
        ++ (List.range n).flatMap
            (fun c => [MPEvent.recv c, MPEvent.mergeEv c, MPEvent.join c]) := by
  unfold multiproc_add
  rw [gather_loop_spec]

theorem recv_sublist_triples :
    ∀ l : List Nat,
      List.Sublist (l.map MPEvent.recv)
        (l.flatMap (fun c => [MPEvent.recv c, MPEvent.mergeEv c, MPEvent.join c])) := by
  intro l
  induction l with
  | nil => simp
  | cons c rest ih =>
      simp only [List.map_cons, List.flatMap_cons, List.cons_append, List.nil_append]
      exact List.Sublist.cons₂ _ ((ih.cons _).cons _)

/-! ## Claim theorems -/

/-- Claim C1: for every file list and every concurrency degree N ≥ 1,
the multi-process build path for new/add (round-robin split, one
partial index per partition, sequential merge into the primary) yields
the same per-file entry counts and the same total stored-hash count in
the primary index as the single-process executor's new/add ingest loop
over the same file list. -/
theorem claim_C1_multiproc_single_equiv (az : Analyzer) (t : HashTable)
    (files : List String) (n : Nat) (hn : 1 ≤ n) :
    (∀ f, ((multiproc_add az t files n).1).countFor f
        = (ingest_loop az t files).countFor f)
    ∧ ((multiproc_add az t files n).1).totcount
        = (ingest_loop az t files).totcount := by
  have hn0 : 0 < n := hn
  constructor
  · intro f
    rw [multiproc_add_table, countFor_merge_foldl, countFor_ingest]
    refine congrArg (fun r => t.countFor f + r) ?_
    have h1 : ((round_robin files n).map
          (fun p => (make_ht_from_list az p t.hashbits t.depth t.maxtime).countFor f))
        = ((round_robin files n).map
            (fun p => p.count f * (az.hashesOf f).length)) := by
      refine List.map_congr_left ?_
      intro p _
      rw [show (make_ht_from_list az p t.hashbits t.depth t.maxtime).countFor f
            = p.count f * (az.hashesOf f).length from by
        unfold make_ht_from_list
        rw [countFor_ingest]
        simp [HashTable.fresh, HashTable.countFor]]
    rw [List.map_map]
    rw [show ((round_robin files n).map
          ((fun p => p.countFor f)
            ∘ fun p => make_ht_from_list az p t.hashbits t.depth t.maxtime))
        = ((round_robin files n).map
            (fun p => (make_ht_from_list az p t.hashbits t.depth t.maxtime).countFor f))
      from rfl]
    rw [h1,
      sum_map_mul_right (fun p : List String => p.count f)
        ((az.hashesOf f).length) (round_robin files n),
      round_robin_count f files n hn0]
  · rw [multiproc_add_table, totcount_merge_foldl, totcount_ingest]
    refine congrArg (fun r => t.totcount + r) ?_
    rw [List.map_map]
    have h1 : ((round_robin files n).map
          (HashTable.totcount ∘ fun p => make_ht_from_list az p t.hashbits t.depth t.maxtime))
        = ((round_robin files n).map
            (fun p => (p.map (fun g => (az.hashesOf g).length)).sum)) := by
      refine List.map_congr_left ?_
      intro p _
      show (make_ht_from_list az p t.hashbits t.depth t.maxtime).totcount = _
      unfold make_ht_from_list
      rw [totcount_ingest]
      simp [HashTable.fresh, HashTable.totcount, HashTable.counts]
    rw [h1, round_robin_weight_sum _ files n hn0]

/-- Claim C1 witness: concrete instance with three files and two cores. -/
theorem claim_C1_witness :
    ((multiproc_add azW tabW ["a", "bb", "ccc"] 2).1).countFor "bb"
        = (ingest_loop azW tabW ["a", "bb", "ccc"]).countFor "bb"
    ∧ ((multiproc_add azW tabW ["a", "bb", "ccc"] 2).1).totcount
        = (ingest_loop azW tabW ["a", "bb", "ccc"]).totcount :=
  ⟨(claim_C1_multiproc_single_equiv azW tabW ["a", "bb", "ccc"] 2 (by decide)).1 "bb",
   (claim_C1_multiproc_single_equiv azW tabW ["a", "bb", "ccc"] 2 (by decide)).2⟩

/-- Claim C5: for every input file sequence and every N ≥ 1, the
round-robin split produces exactly N partitions whose multiset union is
exactly the input sequence (each input file contributes exactly once,
independent of partition-size skew), and — for duplicate-free inputs —
the partitions are pairwise disjoint. -/
theorem claim_C5_round_robin_partition (files : List String) (n : Nat) (hn : 1 ≤ n) :
    (round_robin files n).length = n
    ∧ (∀ a, ((round_robin files n).map (fun p => p.count a)).sum = files.count a)
    ∧ (files.Nodup →
        ∀ i j, i < n → j < n → i ≠ j →
          ∀ a, a ∈ (round_robin files n).getD i [] →
            a ∉ (round_robin files n).getD j []) := by
  have hn0 : 0 < n := hn
  refine ⟨round_robin_length files n, fun a => round_robin_count a files n hn0, ?_⟩
  intro hnd i j hi hj hij a hai haj
  have hlen : (round_robin files n).length = n := round_robin_length files n
  have hcnts : ((round_robin files n).map (fun p => p.count a)).length = n := by
    simpa using hlen
  have hgi : ((round_robin files n).map (fun p => p.count a)).getD i 0
      = ((round_robin files n).getD i []).count a :=
    getD_map_count (fun p => p.count a) (by simp) _ i
  have hgj : ((round_robin files n).map (fun p => p.count a)).getD j 0
      = ((round_robin files n).getD j []).count a :=
    getD_map_count (fun p => p.count a) (by simp) _ j
  have h2 : ((round_robin files n).map (fun p => p.count a)).getD i 0
        + ((round_robin files n).map (fun p => p.count a)).getD j 0
      ≤ ((round_robin files n).map (fun p => p.count a)).sum :=
    getD_two_le_sum _ i j (by omega) (by omega) hij
  have hsum : ((round_robin files n).map (fun p => p.count a)).sum = files.count a :=
    round_robin_count a files n hn0
  have hle1 : files.count a ≤ 1 := List.nodup_iff_count_le_one.mp hnd a
  have hposi : 0 < ((round_robin files n).getD i []).count a :=
    List.count_pos_iff.mpr hai
  have hposj : 0 < ((round_robin files n).getD j []).count a :=
    List.count_pos_iff.mpr haj
  omega

/-- Claim C5 witness: concrete instance with three files and two cores. -/
theorem claim_C5_witness :
    (round_robin ["a", "b", "c"] 2).length = 2
    ∧ ((round_robin ["a", "b", "c"] 2).map (fun p => p.count "a")).sum
        = ["a", "b", "c"].count "a" :=
  ⟨(claim_C5_round_robin_partition ["a", "b", "c"] 2 (by decide)).1,
   (claim_C5_round_robin_partition ["a", "b", "c"] 2 (by decide)).2.1 "a"⟩

/-- Claim C7: the orchestrator of the multi-process build path receives
each worker's partial index in worker launch order, merges each partial
into the primary strictly sequentially on the orchestrating thread (the
trace is one linear sequence with the receive/merge/join triple of core
c complete before that of core c+1 begins), waits for every worker to
terminate (a join event for every core), and the resulting index is the
deterministic partition-index-order fold of the partials into the
primary. -/
theorem claim_C7_orchestrator_order (az : Analyzer) (t : HashTable)
    (files : List String) (n : Nat) :
    ((multiproc_add az t files n).2
        = (List.range n).map MPEvent.start
          ++ (List.range n).flatMap
              (fun c => [MPEvent.recv c, MPEvent.mergeEv c, MPEvent.join c]))
    ∧ ((multiproc_add az t files n).1
        = (((round_robin files n).map
              (fun p => make_ht_from_list az p t.hashbits t.depth t.maxtime)).foldl
            HashTable.merge t))
    ∧ List.Sublist ((List.range n).map MPEvent.recv) ((multiproc_add az t files n).2)
    ∧ (∀ c, c < n → MPEvent.join c ∈ (multiproc_add az t files n).2) := by
  refine ⟨multiproc_add_trace az t files n, multiproc_add_table az t files n, ?_, ?_⟩
  · rw [multiproc_add_trace az t files n]
    exact (recv_sublist_triples (List.range n)).trans (List.sublist_append_right _ _)
  · intro c hc
    rw [multiproc_add_trace az t files n]
    refine List.mem_append_right _ ?_
    exact List.mem_flatMap.mpr ⟨c, List.mem_range.mpr hc, by simp⟩

/-- Claim C7 witness: concrete instance with three files and two cores. -/
theorem claim_C7_witness :
    MPEvent.join 1 ∈ (multiproc_add azW tabW ["a", "b", "c"] 2).2 :=
  (claim_C7_orchestrator_order azW tabW ["a", "b", "c"] 2).2.2.2 1 (by decide)

/-- Claim C6: for every file sequence and every worker completion
order that is a permutation of the submitted task indices, the message
log produced by the parallel-task path for precompute/match lists
per-file results in input submission order, identical to the log of a
concurrency-degree-1 run over the same files. -/
theorem claim_C6_log_order (f : String → List String) (files : List String)
    (sched : List Nat) (h : sched.Perm (List.range files.length)) :
    do_cmd_multiproc_log f files sched = do_cmd_single_log f files := by
  unfold do_cmd_multiproc_log do_cmd_single_log parallel_gather
  have hmap : ((List.range files.length).map
        (fun j => (((completion_results
            (fun i => f (files.getD i "")) sched).lookup j).getD [])))
      = (List.range files.length).map (fun j => f (files.getD j "")) := by
    refine List.map_congr_left ?_
    intro j hj
    have hjs : j ∈ sched := h.mem_iff.mpr hj
    rw [lookup_completion (fun i => f (files.getD i "")) sched j hjs]
    rfl
  rw [hmap, map_comp_getD_range "" (fun s => f s) files]

/-- Claim C6 witness: a degree-3 completion order [2,0,1] over three
files logs in submission order, identical to the sequential log. -/
theorem claim_C6_witness :
    do_cmd_multiproc_log (fun s => [s ++ "!"]) ["A", "B", "C"] [2, 0, 1]
      = do_cmd_single_log (fun s => [s ++ "!"]) ["A", "B", "C"] :=
  claim_C6_log_order (fun s => [s ++ "!"]) ["A", "B", "C"] [2, 0, 1] (by decide)

/-- Claim C2: for every merge/newmerge step over a loaded index `b`
(which carries a sample rate), the step raises the assertion error
exactly when the primary also defines a sample rate and the two
differ; when the primary does not define one, it adopts `b`'s sample
rate and the merge succeeds; and differences in any other parameters
never affect whether the step succeeds. -/
theorem claim_C2_samplerate_check (a b : HashTable) (srb : Nat)
    (hb : b.samplerate = some srb) :
    ((∃ sra, a.samplerate = some sra ∧ sra ≠ srb) ↔
        merge_step a b = Except.error "AssertionError: samplerate mismatch")
    ∧ (a.samplerate = none →
        merge_step a b
          = Except.ok (({ a with samplerate := some srb }).merge b))
    ∧ (∀ op op2,
        (merge_step { a with otherParams := op }
            { b with otherParams := op2 }).isOk
          = (merge_step a b).isOk) := by
  refine ⟨?_, ?_, ?_⟩
  · cases ha : a.samplerate with
    | none => simp [merge_step, ha, hb]
    | some sra =>
        by_cases hs : sra = srb
        · subst hs
          simp [merge_step, ha, hb]
        · simp only [merge_step, ha, hb, if_neg hs]
          refine ⟨fun _ => by trivial, fun _ => ⟨sra, rfl, hs⟩⟩
  · intro ha
    simp [merge_step, ha, hb]
  · intro op op2
    cases ha : a.samplerate with
    | none => simp [merge_step, ha, hb, Except.isOk, Except.toBool]
    | some sra =>
        by_cases hs : sra = srb
        · subst hs
          simp [merge_step, ha, hb, Except.isOk, Except.toBool]
        · simp [merge_step, ha, hb, hs, Except.isOk, Except.toBool]

/-- Claim C2 witness: merging sample rates 11025 and 22050 raises the
assertion error. -/
theorem claim_C2_witness :
    merge_step (HashTable.fresh 20 100 16384 (some 11025))
        (HashTable.fresh 20 100 16384 (some 22050))
      = Except.error "AssertionError: samplerate mismatch" :=
  (claim_C2_samplerate_check (HashTable.fresh 20 100 16384 (some 11025))
      (HashTable.fresh 20 100 16384 (some 22050)) 22050 rfl).1.mp
    ⟨11025, rfl, by decide⟩

/-- Claim C10: the single-process new/add path divides the total
stored-hash count by the analyzer's cumulative processed duration
unconditionally after the ingest loop, so the empty file sequence
(cumulative duration zero) raises a division-by-zero error, and the run
completes without error exactly when the cumulative duration is
nonzero. -/
theorem claim_C10_zero_division (az : Analyzer) (t : HashTable) :
    do_cmd_new_add az t [] = Except.error "ZeroDivisionError"
    ∧ (∀ files : List String,
        (do_cmd_new_add az t files).isOk = true ↔ (files.map az.durOf).sum ≠ 0) := by
  constructor
  · simp [do_cmd_new_add]
  · intro files
    by_cases h : (files.map az.durOf).sum = 0 <;>
      simp [do_cmd_new_add, h, Except.isOk, Except.toBool]

/-- Claim C10 witness: the empty run errors at a concrete instance. -/
theorem claim_C10_witness :
    do_cmd_new_add azW tabW [] = Except.error "ZeroDivisionError" :=
  (claim_C10_zero_division azW tabW).1

/-- Claim C4: the multi-process fan-out executor is selected exactly
when the requested concurrency degree exceeds 1 and the command is one
of precompute/match/new/add; when the degree is at most 1 or the
command is merge, newmerge, list or remove, the single-process executor
is selected. -/
theorem claim_C4_executor_selection :
    ∀ (ncores : Nat) (cmd : Cmd),
      (selects_multiproc ncores cmd = true ↔
        (1 < ncores ∧ (cmd = Cmd.precompute ∨ cmd = Cmd.match_
          ∨ cmd = Cmd.new ∨ cmd = Cmd.add)))
      ∧ ((ncores ≤ 1 ∨ cmd = Cmd.merge ∨ cmd = Cmd.newmerge
            ∨ cmd = Cmd.list_ ∨ cmd = Cmd.remove)
          → selects_multiproc ncores cmd = false) := by
  intro ncores cmd
  constructor
  · cases cmd <;> simp [selects_multiproc]
  · intro h
    cases cmd <;> simp [selects_multiproc] <;> (simp at h; omega)

/-- Claim C4 witness: merge at degree 5 still selects the
single-process executor. -/
theorem claim_C4_witness : selects_multiproc 5 Cmd.merge = false :=
  (claim_C4_executor_selection 5 Cmd.merge).2 (Or.inr (Or.inl rfl))

theorem run_main_ok_writes (az : Analyzer) (load : String → HashTable) (fs : FileSys)
    (cmd : Cmd) (dbase : String) (files : List String)
    (ncores samplerate hashbits depth maxtimebits : Nat) (res : RunResult)
    (h : run_main az load fs cmd dbase files ncores samplerate hashbits depth
        maxtimebits = Except.ok res) :
    res.writes = save_epilogue dbase res.tab := by
  unfold run_main at h
  split at h
  · simp at h
  · split at h
    · simp at h
    · injection h with h2
      rw [← h2]

theorem plan_table_loaded (load : String → HashTable) (fs : FileSys) (cmd : Cmd)
    (dbase : String) (sr hb dp mtb : Nat) (fs2 : FileSys) (tab : Option HashTable)
    (h1 : cmd ≠ Cmd.precompute) (h2 : cmd ≠ Cmd.new) (h3 : cmd ≠ Cmd.newmerge)
    (heq : plan_table load fs cmd dbase sr hb dp mtb = Except.ok (fs2, tab)) :
    tab = some { load dbase with dirty := false } := by
  cases cmd <;> simp at h1 h2 h3 <;>
    · simp [plan_table] at heq
      split at heq
      · first
        | exact heq.elim
        | simp at heq
      · first
        | exact heq.2.symm
        | exact heq.2
        | (simp only [Except.ok.injEq, Prod.mk.injEq] at heq; exact heq.2.symm)

theorem exec_preserves_readonly (az : Analyzer) (load : String → HashTable)
    (cmd : Cmd) (tab : Option HashTable) (files : List String) (ncores : Nat)
    (tab2 : Option HashTable)
    (hcmd : cmd = Cmd.list_ ∨ cmd = Cmd.match_)
    (h : (if selects_multiproc ncores cmd then
            do_cmd_multiproc_model az cmd tab files ncores
          else do_cmd_model az load cmd tab files) = Except.ok tab2) :
    tab2 = tab := by
  rcases hcmd with hc | hc <;> subst hc
  · rw [show selects_multiproc ncores Cmd.list_ = false from by
      simp [selects_multiproc]] at h
    simp [do_cmd_model] at h
    exact h.symm
  · cases hsel : selects_multiproc ncores Cmd.match_ <;> rw [hsel] at h
    · simp [do_cmd_model] at h
      exact h.symm
    · simp [do_cmd_multiproc_model] at h
      exact h.symm

theorem run_main_tab_clean (az : Analyzer) (load : String → HashTable) (fs : FileSys)
    (cmd : Cmd) (dbase : String) (files : List String)
    (ncores samplerate hashbits depth maxtimebits : Nat) (res : RunResult)
    (hcmd : cmd = Cmd.list_ ∨ cmd = Cmd.match_)
    (h : run_main az load fs cmd dbase files ncores samplerate hashbits depth
        maxtimebits = Except.ok res) :
    res.tab = some { load dbase with dirty := false } := by
  have hne : cmd ≠ Cmd.precompute ∧ cmd ≠ Cmd.new ∧ cmd ≠ Cmd.newmerge := by
    rcases hcmd with hc | hc <;> subst hc <;> exact ⟨by simp, by simp, by simp⟩
  unfold run_main at h
  split at h
  · simp at h
  · rename_i fs2 tab heq
    split at h
    · simp at h
    · rename_i tab2 heq2
      injection h with h2
      rw [← h2]
      show tab2 = some { load dbase with dirty := false }
      rw [exec_preserves_readonly az load cmd tab files ncores tab2 hcmd heq2]
      exact plan_table_loaded load fs cmd dbase samplerate hashbits depth
        maxtimebits fs2 tab hne.1 hne.2.1 hne.2.2 heq

/-- Claim C3: for every run that uses an index handle and completes,
the primary index is written at most once; it is written exactly when a
handle exists and its dirty flag is set at the end of the run; every
write targets the originally named index path; and a run performing
only list or match never writes. -/
theorem claim_C3_persistence (az : Analyzer) (load : String → HashTable)
    (fs : FileSys) (cmd : Cmd) (dbase : String) (files : List String)
    (ncores samplerate hashbits depth maxtimebits : Nat) (res : RunResult)
    (h : run_main az load fs cmd dbase files ncores samplerate hashbits depth
        maxtimebits = Except.ok res) :
    res.writes.length ≤ 1
    ∧ (res.writes ≠ [] ↔ ∃ t, res.tab = some t ∧ t.dirty = true)
    ∧ (∀ p ∈ res.writes, p = dbase)
    ∧ ((cmd = Cmd.list_ ∨ cmd = Cmd.match_) → res.writes = []) := by
  have hw : res.writes = save_epilogue dbase res.tab :=
    run_main_ok_writes az load fs cmd dbase files ncores samplerate hashbits
      depth maxtimebits res h
  refine ⟨?_, ?_, ?_, ?_⟩
  · rw [hw]
    cases htab : res.tab with
    | none => simp [save_epilogue]
    | some t => cases ht : t.dirty <;> simp [save_epilogue, ht]
  · rw [hw]
    cases htab : res.tab with
    | none => simp [save_epilogue]
    | some t =>
        cases ht : t.dirty <;> simp [save_epilogue, ht]
  · rw [hw]
    cases htab : res.tab with
    | none => simp [save_epilogue]
    | some t => cases ht : t.dirty <;> simp [save_epilogue, ht]
  · intro hcmd
    have hclean := run_main_tab_clean az load fs cmd dbase files ncores
      samplerate hashbits depth maxtimebits res hcmd h
    rw [hw, hclean]
    simp [save_epilogue]

/-- Claim C3 witness: a concrete list run at degree 4 writes nothing. -/
theorem claim_C3_witness :
    ({ fs := fsW, tab := some { loadW "db" with dirty := false },
        writes := [] } : RunResult).writes = [] :=
  (claim_C3_persistence azW loadW fsW Cmd.list_ "db" [] 4 11025 20 100 14
      { fs := fsW, tab := some { loadW "db" with dirty := false }, writes := [] }
      rfl).2.2.2 (Or.inl rfl)

theorem isfile_write (fs : FileSys) (p : String) (c : List Nat) :
    (fs.write p c).isfile p = true := by
  simp [FileSys.write, FileSys.isfile]

theorem fpph_skip (az : Analyzer) (fs : FileSys) (filename precompdir : String)
    (hashes_not_peaks : Bool) (sp : Option String)
    (hex : fs.isfile (opfname_of precompdir hashes_not_peaks sp filename) = true) :
    file_precompute_peaks_or_hashes az fs filename precompdir hashes_not_peaks true sp
      = { fs := fs,
          msgs := ["file " ++ opfname_of precompdir hashes_not_peaks sp filename
            ++ " exists (and --skip-existing); skipping"],
          analyses := 0 } := by
  unfold file_precompute_peaks_or_hashes
  rw [if_pos ⟨rfl, hex⟩]

theorem fpph_fs_has_artifact (az : Analyzer) (fs : FileSys)
    (filename precompdir : String) (hashes_not_peaks : Bool) (sp : Option String)
    (hout : (if hashes_not_peaks then az.hashesOf filename
              else az.peaksOf filename) ≠ []) :
    ((file_precompute_peaks_or_hashes az fs filename precompdir hashes_not_peaks
        true sp).fs).isfile
      (opfname_of precompdir hashes_not_peaks sp filename) = true := by
  by_cases hex : fs.isfile (opfname_of precompdir hashes_not_peaks sp filename) = true
  · rw [fpph_skip az fs filename precompdir hashes_not_peaks sp hex]
    exact hex
  · have hlen : ¬ ((if hashes_not_peaks then az.hashesOf filename
        else az.peaksOf filename).length = 0) := by
      simpa [List.length_eq_zero] using hout
    unfold file_precompute_peaks_or_hashes
    rw [if_neg (fun hc => hex hc.2), if_neg hlen]
    exact isfile_write _ _ _

/-- Claim C8: with skip-if-exists enabled, precompute over a file whose
derived artifact already exists returns the single skip message,
performing no analysis and no write; consequently, when the analysis
output is non-empty, running precompute twice with skip-existing
enabled performs zero analysis on the second run and leaves the first
run's filesystem (including its artifact) unchanged. -/
theorem claim_C8_skip_existing_idempotent (az : Analyzer) (fs : FileSys)
    (filename precompdir : String) (hashes_not_peaks : Bool) (sp : Option String) :
    (fs.isfile (opfname_of precompdir hashes_not_peaks sp filename) = true →
      file_precompute_peaks_or_hashes az fs filename precompdir hashes_not_peaks
          true sp
        = { fs := fs,
            msgs := ["file " ++ opfname_of precompdir hashes_not_peaks sp filename
              ++ " exists (and --skip-existing); skipping"],
            analyses := 0 })
    ∧ ((if hashes_not_peaks then az.hashesOf filename
          else az.peaksOf filename) ≠ [] →
        ((file_precompute_peaks_or_hashes az
            (file_precompute_peaks_or_hashes az fs filename precompdir
              hashes_not_peaks true sp).fs
            filename precompdir hashes_not_peaks true sp).analyses = 0
         ∧ (file_precompute_peaks_or_hashes az
              (file_precompute_peaks_or_hashes az fs filename precompdir
                hashes_not_peaks true sp).fs
              filename precompdir hashes_not_peaks true sp).fs
            = (file_precompute_peaks_or_hashes az fs filename precompdir
                hashes_not_peaks true sp).fs)) := by
  constructor
  · intro hex
    exact fpph_skip az fs filename precompdir hashes_not_peaks sp hex
  · intro hout
    have hfile := fpph_fs_has_artifact az fs filename precompdir hashes_not_peaks
      sp hout
    rw [fpph_skip az _ filename precompdir hashes_not_peaks sp hfile]
    exact ⟨rfl, rfl⟩

/-- Claim C8 witness: a second skip-existing precompute run over a
concrete file performs zero analyses. -/
theorem claim_C8_witness :
    (file_precompute_peaks_or_hashes azW
        (file_precompute_peaks_or_hashes azW fsW "x.wav" "out" true true none).fs
        "x.wav" "out" true true none).analyses = 0 :=
  ((claim_C8_skip_existing_idempotent azW fsW "x.wav" "out" true none).2
    (by decide)).1

/-- Claim C9, code behavior at the failing input: with the index's
containing directory "p" absent and not creatable, `ensure_dir`
swallows the creation failure (bare `except: pass`, lines 52-55) and a
`new` run proceeds through all of the file work and completes without
raising any error — the directory check does not fail fast as claimed;
the failure could only surface at the final save. -/
theorem claim_C9_no_fail_fast :
    fsLocked.creatable.contains "p" = false
    ∧ fsLocked.direxists "p" = false
    ∧ ensure_dir fsLocked "p" = fsLocked
    ∧ run_main azW loadW fsLocked Cmd.new "p/db.pklz" ["x.wav"] 1 11025 20 100 14
        = Except.ok
            { fs := fsLocked,
              tab := some ⟨20, 100, 16384, [("x.wav", 5)], some 11025, [], true⟩,
              writes := ["p/db.pklz"] } := by
  refine ⟨rfl, rfl, by decide, by rfl⟩
